import Mathlib

/-!
Shallow embedding of `exotic_bet_optimizer.py` (equine-oracle-backend).

Python floats are modelled as exact rationals (`ℚ`); float literals such as
`0.7`, `1e-10`, `0.001` become the exact rationals they denote.  Python lists
become `List`, dicts become association lists whose key lists we reason about
directly (all claims that count or enumerate dict entries assume pairwise
distinct horse identifiers, under which the association list and the dict
coincide).  `itertools.permutations(xs, k)` enumerates index-tuples; under
distinct elements this equals the value-based enumeration used here
(`perms2`/`perms3`/`perms4`).  Python's `sorted(..., key=k, reverse=True)` is a
stable descending sort; `List.insertionSort` with the total preorder
`fun a b => k b ≤ k a` is also a stable descending sort, hence computes the
same list.
-/

/-- `Horse` dataclass of the source: id, name, probabilities, odds, people,
ratings. -/
structure Horse where
  id : ℤ
  name : String
  win_probability : ℚ
  place_probability : ℚ
  show_probability : ℚ
  odds : ℚ
  jockey : String
  trainer : String
  form_rating : ℚ
  speed_rating : ℚ
  class_rating : ℚ
deriving DecidableEq

/-- Placeholder returned by total lookups for the (never exercised) case where
an id is absent; the source's `next(...)` would raise there. -/
def defaultHorse : Horse :=
  ⟨0, "", 0, 0, 0, 0, "", "", 0, 0, 0⟩

/-- `next(h for h in horses if h.id == i)`, made total with `defaultHorse` for
the impossible missing-id case. -/
def findHorse (horses : List Horse) (i : ℤ) : Horse :=
  (horses.find? fun h => decide (h.id = i)).getD defaultHorse

/-- `remaining_horses.remove(horse)` where `horse` is the first element whose
id is `i`: elements before it have different ids, so removing the first
value-equal element is removing the first id-match. -/
def removeById (horses : List Horse) (i : ℤ) : List Horse :=
  horses.eraseP fun h => decide (h.id = i)

/-- `implied_prob = 1 / horse.odds if horse.odds > 0 else 0.01`. -/
def impliedProb (horse : Horse) : ℚ :=
  if 0 < horse.odds then 1 / horse.odds else 0.01

/-- `total_implied = sum(implied_probs)`. -/
def totalImplied (horses : List Horse) : ℚ :=
  (horses.map impliedProb).sum

/-- `_estimate_place_probability` of the source (field-size tiers). -/
def estimate_place_probability (win_prob : ℚ) (field_size : ℕ) : ℚ :=
  if field_size ≤ 4 then min (win_prob * 2.5) 0.95
  else if field_size ≤ 8 then min (win_prob * 2.2) 0.90
  else min (win_prob * 1.8) 0.85

/-- `_estimate_show_probability` of the source (field-size tiers). -/
def estimate_show_probability (win_prob : ℚ) (field_size : ℕ) : ℚ :=
  if field_size ≤ 5 then min (win_prob * 3.0) 0.98
  else if field_size ≤ 10 then min (win_prob * 2.5) 0.95
  else min (win_prob * 2.0) 0.90

/-- `ProbabilityCalibrator.calibrate_win_probabilities`: blend
`0.7 * model + 0.3 * (implied / total_implied)` and re-derive place/show. -/
def calibrate_win_probabilities (horses : List Horse) : List Horse :=
  horses.map fun horse =>
    let market_prob := impliedProb horse / totalImplied horses
    let calibrated_prob := 0.7 * horse.win_probability + 0.3 * market_prob
    { horse with
        win_probability := calibrated_prob
        place_probability := estimate_place_probability calibrated_prob horses.length
        show_probability := estimate_show_probability calibrated_prob horses.length }

/-- `itertools.permutations(l, 2)` (as values; coincides with the index-based
enumeration whenever `l` has no duplicates). -/
def perms2 (l : List ℤ) : List (ℤ × ℤ) :=
  l.flatMap fun a => (l.erase a).map fun b => (a, b)

/-- `itertools.permutations(l, 3)` (as values). -/
def perms3 (l : List ℤ) : List (ℤ × ℤ × ℤ) :=
  l.flatMap fun a => (l.erase a).flatMap fun b =>
    ((l.erase a).erase b).map fun c => (a, b, c)

/-- `itertools.permutations(l, 4)` (as values). -/
def perms4 (l : List ℤ) : List (ℤ × ℤ × ℤ × ℤ) :=
  l.flatMap fun a => (l.erase a).flatMap fun b =>
    ((l.erase a).erase b).flatMap fun c =>
      (((l.erase a).erase b).erase c).map fun d => (a, b, c, d)

/-- Joint probability assigned to one exacta permutation:
`prob_1st * (horse2.win / (1 - horse1.win + 1e-10))`. -/
def exactaValue (horses : List Horse) (a b : ℤ) : ℚ :=
  let horse1 := findHorse horses a
  let horse2 := findHorse horses b
  let prob_1st := horse1.win_probability
  let prob_2nd_given_1st := horse2.win_probability / (1 - horse1.win_probability + 1e-10)
  prob_1st * prob_2nd_given_1st

/-- `_calculate_exacta_probabilities`: all ordered pairs over the full field. -/
def calculate_exacta_probabilities (horses : List Horse) : List ((ℤ × ℤ) × ℚ) :=
  (perms2 (horses.map Horse.id)).map fun p => (p, exactaValue horses p.1 p.2)

/-- `sorted(horses, key=lambda h: h.win_probability, reverse=True)` — stable
descending sort, embedded as insertion sort by the total preorder
`b.win_probability ≤ a.win_probability`. -/
def sortDescByWin (horses : List Horse) : List Horse :=
  List.insertionSort (fun a b => b.win_probability ≤ a.win_probability) horses

/-- `sorted(horses, ...)[:k]`: the top-`k` pool. -/
def top_horses (k : ℕ) (horses : List Horse) : List Horse :=
  (sortDescByWin horses).take k

/-- Joint probability assigned to one trifecta permutation (sequential
conditionals with `1e-10` guards). -/
def trifectaValue (horses : List Horse) (a b c : ℤ) : ℚ :=
  let horse1 := findHorse horses a
  let horse2 := findHorse horses b
  let horse3 := findHorse horses c
  let prob_1st := horse1.win_probability
  let prob_2nd_given_1st := horse2.win_probability / (1 - horse1.win_probability + 1e-10)
  let remaining_prob := 1 - horse1.win_probability - horse2.win_probability
  let prob_3rd_given_12 := horse3.win_probability / (remaining_prob + 1e-10)
  prob_1st * prob_2nd_given_1st * prob_3rd_given_12

/-- `_calculate_trifecta_probabilities`: permutations of the top-6 pool,
valued with the original per-horse probabilities. -/
def calculate_trifecta_probabilities (horses : List Horse) : List ((ℤ × ℤ × ℤ) × ℚ) :=
  (perms3 ((top_horses 6 horses).map Horse.id)).map fun p =>
    (p, trifectaValue horses p.1 p.2.1 p.2.2)

/-- The superfecta inner loop: for each placed id, multiply by
`horse.win / sum(win over remaining)` and remove the horse from `remaining`.
`remaining` starts as `list(horses)` — the whole field. -/
def superfectaStep : List Horse → List ℤ → ℚ
  | _, [] => 1
  | remaining, i :: rest =>
    let horse := findHorse remaining i
    horse.win_probability / (remaining.map Horse.win_probability).sum
      * superfectaStep (removeById remaining i) rest

/-- Joint probability assigned to one superfecta permutation. -/
def superfectaValue (horses : List Horse) (p : ℤ × ℤ × ℤ × ℤ) : ℚ :=
  superfectaStep horses [p.1, p.2.1, p.2.2.1, p.2.2.2]

/-- `_calculate_superfecta_probabilities`: permutations of the top-5 pool,
valued by the renormalizing loop over the whole field. -/
def calculate_superfecta_probabilities (horses : List Horse) :
    List ((ℤ × ℤ × ℤ × ℤ) × ℚ) :=
  (perms4 ((top_horses 5 horses).map Horse.id)).map fun p => (p, superfectaValue horses p)

/-- Verification view for the safety claims: the denominators the exacta
computation divides by, one per enumerated permutation. -/
def exactaDenominators (horses : List Horse) : List ℚ :=
  (perms2 (horses.map Horse.id)).map fun p =>
    1 - (findHorse horses p.1).win_probability + 1e-10

/-- Verification view: the two denominators the trifecta computation divides
by, for each enumerated permutation. -/
def trifectaDenominators (horses : List Horse) : List ℚ :=
  (perms3 ((top_horses 6 horses).map Horse.id)).flatMap fun p =>
    [1 - (findHorse horses p.1).win_probability + 1e-10,
     1 - (findHorse horses p.1).win_probability
       - (findHorse horses p.2.1).win_probability + 1e-10]

/-- Verification view: the denominators of the superfecta loop, in loop
order (a sum of remaining win probabilities at each of the four steps). -/
def superfectaStepDenominators : List Horse → List ℤ → List ℚ
  | _, [] => []
  | remaining, i :: rest =>
    (remaining.map Horse.win_probability).sum
      :: superfectaStepDenominators (removeById remaining i) rest

/-- Verification view: every denominator the superfecta computation divides
by, across all enumerated permutations. -/
def superfectaDenominators (horses : List Horse) : List ℚ :=
  (perms4 ((top_horses 5 horses).map Horse.id)).flatMap fun p =>
    superfectaStepDenominators horses [p.1, p.2.1, p.2.2.1, p.2.2.2]

/-- `ExoticBet` dataclass of the source. -/
structure ExoticBet where
  bet_type : String
  combination : List ℤ
  probability : ℚ
  payout_odds : ℚ
  expected_value : ℚ
  kelly_fraction : ℚ
  confidence_score : ℚ
deriving DecidableEq

/-- `ExoticCombinationGenerator.min_probability_threshold`. -/
def min_probability_threshold : ℚ := 0.001

/-- `_calculate_kelly_fraction`: 0 when odds ≤ 1, otherwise the capped Kelly
formula. -/
def calculate_kelly_fraction (probability odds : ℚ) : ℚ :=
  if odds ≤ 1 then 0
  else
    let b := odds - 1
    let p := probability
    let q := 1 - p
    let kelly := (b * p - q) / b
    max 0 (min kelly 0.25)

/-- `_estimate_exacta_payout`. -/
def estimate_exacta_payout (combination : ℤ × ℤ) (horses : List Horse) : ℚ :=
  let horse1 := findHorse horses combination.1
  let horse2 := findHorse horses combination.2
  max (horse1.odds * horse2.odds * 0.8) 2

/-- `_estimate_trifecta_payout`. -/
def estimate_trifecta_payout (combination : ℤ × ℤ × ℤ) (horses : List Horse) : ℚ :=
  let payouts := [combination.1, combination.2.1, combination.2.2].map
    fun i => (findHorse horses i).odds
  max (payouts.prod * 0.75) 5

/-- `_estimate_superfecta_payout`. -/
def estimate_superfecta_payout (combination : ℤ × ℤ × ℤ × ℤ) (horses : List Horse) : ℚ :=
  let payouts := [combination.1, combination.2.1, combination.2.2.1, combination.2.2.2].map
    fun i => (findHorse horses i).odds
  max (payouts.prod * 0.7) 10

/-- `np.mean` over a rational list. -/
def listMean (l : List ℚ) : ℚ := l.sum / (l.length : ℚ)

/-- `_calculate_confidence_score`. -/
def calculate_confidence_score (combination : List ℤ) (horses : List Horse)
    (probability : ℚ) : ℚ :=
  let combo_horses := combination.map (findHorse horses)
  let avg_form := listMean (combo_horses.map Horse.form_rating)
  let avg_speed := listMean (combo_horses.map Horse.speed_rating)
  let prob_factor := min (probability * 100) 10 / 10
  let avg_class := listMean (combo_horses.map Horse.class_rating)
  let confidence := (0.3 * avg_form + 0.25 * avg_speed + 0.25 * prob_factor
    + 0.2 * avg_class) / 100
  min (max confidence 0) 1

/-- `bets.sort(key=lambda bet: bet.expected_value, reverse=True)` — stable
descending sort on expected value. -/
def sortByEVDesc (bets : List ExoticBet) : List ExoticBet :=
  List.insertionSort (fun x y => y.expected_value ≤ x.expected_value) bets

/-- `generate_exacta_combinations` (the source defaults `max_combinations`
to 20; it is a parameter here). -/
def generate_exacta_combinations (horses : List Horse) (max_combinations : ℕ) :
    List ExoticBet :=
  let exacta_probs := calculate_exacta_probabilities horses
  let kept := exacta_probs.filter fun e => decide (¬ e.2 < min_probability_threshold)
  let exacta_bets := kept.map fun e =>
    let payout_odds := estimate_exacta_payout e.1 horses
    { bet_type := "exacta"
      combination := [e.1.1, e.1.2]
      probability := e.2
      payout_odds := payout_odds
      expected_value := e.2 * payout_odds - 1
      kelly_fraction := calculate_kelly_fraction e.2 payout_odds
      confidence_score := calculate_confidence_score [e.1.1, e.1.2] horses e.2 }
  (sortByEVDesc exacta_bets).take max_combinations

/-- `generate_trifecta_combinations` (source default `max_combinations` 15). -/
def generate_trifecta_combinations (horses : List Horse) (max_combinations : ℕ) :
    List ExoticBet :=
  let trifecta_probs := calculate_trifecta_probabilities horses
  let kept := trifecta_probs.filter fun e => decide (¬ e.2 < min_probability_threshold)
  let trifecta_bets := kept.map fun e =>
    let payout_odds := estimate_trifecta_payout e.1 horses
    { bet_type := "trifecta"
      combination := [e.1.1, e.1.2.1, e.1.2.2]
      probability := e.2
      payout_odds := payout_odds
      expected_value := e.2 * payout_odds - 1
      kelly_fraction := calculate_kelly_fraction e.2 payout_odds
      confidence_score := calculate_confidence_score [e.1.1, e.1.2.1, e.1.2.2] horses e.2 }
  (sortByEVDesc trifecta_bets).take max_combinations

/-- `generate_superfecta_combinations` (source default `max_combinations` 10). -/
def generate_superfecta_combinations (horses : List Horse) (max_combinations : ℕ) :
    List ExoticBet :=
  let superfecta_probs := calculate_superfecta_probabilities horses
  let kept := superfecta_probs.filter fun e => decide (¬ e.2 < min_probability_threshold)
  let superfecta_bets := kept.map fun e =>
    let payout_odds := estimate_superfecta_payout e.1 horses
    { bet_type := "superfecta"
      combination := [e.1.1, e.1.2.1, e.1.2.2.1, e.1.2.2.2]
      probability := e.2
      payout_odds := payout_odds
      expected_value := e.2 * payout_odds - 1
      kelly_fraction := calculate_kelly_fraction e.2 payout_odds
      confidence_score :=
        calculate_confidence_score [e.1.1, e.1.2.1, e.1.2.2.1, e.1.2.2.2] horses e.2 }
  (sortByEVDesc superfecta_bets).take max_combinations

/-- `Signal`: the dict built per retained bet in `generate_ev_signals`
(the wall-clock timestamp is outside the model). -/
structure Signal where
  bet_type : String
  combination : List ℤ
  probability : ℚ
  expected_value : ℚ
  kelly_fraction : ℚ
  confidence_score : ℚ
  signal_strength : ℚ
  risk_level : String
  recommended_stake : ℚ
deriving DecidableEq

/-- `_calculate_signal_strength`. -/
def calculate_signal_strength (bet : ExoticBet) : ℚ :=
  let ev_component := min (bet.expected_value * 2) 1
  let confidence_component := bet.confidence_score
  let kelly_component := min (bet.kelly_fraction * 4) 1
  0.4 * ev_component + 0.35 * confidence_component + 0.25 * kelly_component

/-- `_assess_risk_level`. -/
def assess_risk_level (bet : ExoticBet) : String :=
  if 0.1 < bet.probability then "LOW"
  else if 0.05 < bet.probability then "MEDIUM"
  else if 0.01 < bet.probability then "HIGH"
  else "VERY_HIGH"

/-- `_calculate_recommended_stake` (source default bankroll 1000). -/
def calculate_recommended_stake (bet : ExoticBet) (bankroll : ℚ) : ℚ :=
  bankroll * bet.kelly_fraction

/-- The signal dict built from one bet inside `generate_ev_signals`. -/
def mkSignal (bet : ExoticBet) : Signal :=
  { bet_type := bet.bet_type
    combination := bet.combination
    probability := bet.probability
    expected_value := bet.expected_value
    kelly_fraction := bet.kelly_fraction
    confidence_score := bet.confidence_score
    signal_strength := calculate_signal_strength bet
    risk_level := assess_risk_level bet
    recommended_stake := calculate_recommended_stake bet 1000 }

/-- `EVSignalGenerator.generate_ev_signals`: keep bets with
`expected_value > min_ev_threshold`, build signals, sort by strength. -/
def generate_ev_signals (min_ev_threshold : ℚ) (exotic_bets : List ExoticBet) :
    List Signal :=
  let positive_ev_bets := exotic_bets.filter fun bet =>
    decide (min_ev_threshold < bet.expected_value)
  let signals := positive_ev_bets.map mkSignal
  List.insertionSort (fun s t => t.signal_strength ≤ s.signal_strength) signals

/-- Input validity used by several claims: win probabilities in `[0,1]`,
positive odds. -/
def validHorses (horses : List Horse) : Prop :=
  ∀ h ∈ horses, 0 ≤ h.win_probability ∧ h.win_probability ≤ 1 ∧ 0 < h.odds

/-- Shorthand for building a concrete horse whose irrelevant fields are
zeroed. -/
def mkHorse (i : ℤ) (win odds : ℚ) : Horse :=
  { id := i, name := "", win_probability := win, place_probability := 0,
    show_probability := 0, odds := odds, jockey := "", trainer := "",
    form_rating := 0, speed_rating := 0, class_rating := 0 }

/-- The Kelly expression exactly as the spec sentence states it:
`max(0, min(0.25, (b*p - (1-p))/b))` with `b = payout - 1`, with no guard on
the sign of `b`. -/
def kellySpecFormula (p payout : ℚ) : ℚ :=
  max 0 (min 0.25 (((payout - 1) * p - (1 - p)) / (payout - 1)))

/-- The superfecta value as the claim describes it: the renormalizing loop
started on the top-5 pool instead of the whole field, so each denominator
ranges over the pool minus the already-placed horses. -/
def superfectaPoolValue (horses : List Horse) (p : ℤ × ℤ × ℤ × ℤ) : ℚ :=
  superfectaStep (top_horses 5 horses) [p.1, p.2.1, p.2.2.1, p.2.2.2]

/-- Six-horse race with pairwise distinct win probabilities; the sixth horse
keeps the whole-field sums different from the top-5 pool sums. -/
def raceSix : List Horse :=
  [mkHorse 1 0.30 2, mkHorse 2 0.25 2, mkHorse 3 0.20 2,
   mkHorse 4 0.15 2, mkHorse 5 0.06 2, mkHorse 6 0.04 2]

/-- Valid race whose first two win probabilities sum to exactly `1 + 1e-10`,
cancelling the trifecta epsilon. -/
def raceEpsilonCancel : List Horse :=
  [mkHorse 1 1 2, mkHorse 2 1e-10 2, mkHorse 3 0 2]

/-- Valid race in which every win probability is zero, so the unguarded
superfecta denominator is zero. -/
def raceAllZero : List Horse :=
  [mkHorse 1 0 2, mkHorse 2 0 2, mkHorse 3 0 2, mkHorse 4 0 2]

/-- Valid two-horse race whose model probabilities are both 1; after
calibration the exacta formula explodes past 1. -/
def raceOverconfident : List Horse :=
  [mkHorse 1 1 2, mkHorse 2 1 2]

/-- Seven-horse race used to witness the pool-selection theorem. -/
def raceSeven : List Horse :=
  [mkHorse 1 0.30 2, mkHorse 2 0.25 2, mkHorse 3 0.20 2,
   mkHorse 4 0.15 2, mkHorse 5 0.05 2, mkHorse 6 0.05 2, mkHorse 7 0 2]

/-- A two-horse race with ordinary probabilities, used as a generator
witness input. -/
def raceTwo : List Horse :=
  [mkHorse 1 0.9 2, mkHorse 2 0.1 2]

/-- Placeholder bet for total list indexing in witnesses. -/
def defaultBet : ExoticBet :=
  { bet_type := "", combination := [], probability := 0, payout_odds := 0,
    expected_value := 0, kelly_fraction := 0, confidence_score := 0 }

/-- A concrete bet whose expected value 0.2 clears the default threshold. -/
def sampleBet : ExoticBet :=
  { bet_type := "exacta", combination := [1, 2], probability := 0.15,
    payout_odds := 8, expected_value := 0.2, kelly_fraction := 0.05,
    confidence_score := 0.5 }

/-!  Theorems.  -/

theorem findHorse_spec {horses : List Horse} {i : ℤ} (h : i ∈ horses.map Horse.id) :
    findHorse horses i ∈ horses ∧ (findHorse horses i).id = i := by
  obtain ⟨x, hx, hxid⟩ := List.mem_map.mp h
  have hs : (horses.find? fun h => decide (h.id = i)).isSome := by
    rw [List.find?_isSome]
    exact ⟨x, hx, by simp [hxid]⟩
  obtain ⟨y, hy⟩ := Option.isSome_iff_exists.mp hs
  have hyi : y.id = i := by
    have := List.find?_some hy
    simpa using this
  refine ⟨?_, ?_⟩
  · simpa [findHorse, hy] using List.mem_of_find?_eq_some hy
  · simp [findHorse, hy, hyi]

theorem findHorse_eq_of_mem {horses : List Horse} (hn : (horses.map Horse.id).Nodup)
    {x : Horse} (hx : x ∈ horses) : findHorse horses x.id = x := by
  induction horses with
  | nil => cases hx
  | cons y t ih =>
    simp only [List.map_cons, List.nodup_cons] at hn
    rcases List.mem_cons.mp hx with rfl | hxt
    · simp [findHorse, List.find?_cons]
    · have hne : y.id ≠ x.id := by
        intro he
        exact hn.1 (he ▸ List.mem_map_of_mem Horse.id hxt)
      have hpa : (decide (y.id = x.id)) = false := by simp [hne]
      simp only [findHorse, List.find?_cons, hpa, cond_false]
      exact ih hn.2 hxt

theorem removeById_eq_filter {horses : List Horse} (hn : (horses.map Horse.id).Nodup)
    (a : ℤ) :
    removeById horses a = horses.filter fun g => !decide (g.id = a) := by
  induction horses with
  | nil => rfl
  | cons y t ih =>
    simp only [List.map_cons, List.nodup_cons] at hn
    by_cases hy : y.id = a
    · have h2 : t.filter (fun g => !decide (g.id = a)) = t := by
        apply List.filter_eq_self.mpr
        intro g hg
        simp only [Bool.not_eq_true', decide_eq_false_iff_not]
        intro hga
        have hmem : g.id ∈ List.map Horse.id t := List.mem_map_of_mem Horse.id hg
        rw [hga, ← hy] at hmem
        exact hn.1 hmem
      have h1 : removeById (y :: t) a = t := by
        simp [removeById, List.eraseP_cons, hy]
      rw [h1, List.filter_cons]
      simp [hy, h2]
    · have h1 : removeById (y :: t) a = y :: removeById t a := by
        simp [removeById, List.eraseP_cons, hy]
      rw [h1, List.filter_cons]
      simp [hy, ih hn.2]

theorem mem_perms2 {l : List ℤ} {a b : ℤ} :
    (a, b) ∈ perms2 l ↔ a ∈ l ∧ b ∈ l.erase a := by
  constructor
  · intro h
    obtain ⟨x, hx, hmem⟩ := List.mem_flatMap.mp h
    obtain ⟨y, hy, heq⟩ := List.mem_map.mp hmem
    obtain ⟨rfl, rfl⟩ : x = a ∧ y = b := by simpa [Prod.ext_iff] using heq
    exact ⟨hx, hy⟩
  · rintro ⟨ha, hb⟩
    exact List.mem_flatMap.mpr ⟨a, ha, List.mem_map.mpr ⟨b, hb, rfl⟩⟩

theorem mem_perms3 {l : List ℤ} {a b c : ℤ} :
    (a, b, c) ∈ perms3 l ↔ a ∈ l ∧ b ∈ l.erase a ∧ c ∈ (l.erase a).erase b := by
  constructor
  · intro h
    obtain ⟨x, hx, hmem⟩ := List.mem_flatMap.mp h
    obtain ⟨y, hy, hmem2⟩ := List.mem_flatMap.mp hmem
    obtain ⟨z, hz, heq⟩ := List.mem_map.mp hmem2
    obtain ⟨rfl, rfl, rfl⟩ : x = a ∧ y = b ∧ z = c := by
      simpa [Prod.ext_iff] using heq
    exact ⟨hx, hy, hz⟩
  · rintro ⟨ha, hb, hc⟩
    exact List.mem_flatMap.mpr ⟨a, ha,
      List.mem_flatMap.mpr ⟨b, hb, List.mem_map.mpr ⟨c, hc, rfl⟩⟩⟩

theorem mem_perms4 {l : List ℤ} {a b c d : ℤ} :
    (a, b, c, d) ∈ perms4 l ↔
      a ∈ l ∧ b ∈ l.erase a ∧ c ∈ (l.erase a).erase b
        ∧ d ∈ ((l.erase a).erase b).erase c := by
  constructor
  · intro h
    obtain ⟨x, hx, hmem⟩ := List.mem_flatMap.mp h
    obtain ⟨y, hy, hmem2⟩ := List.mem_flatMap.mp hmem
    obtain ⟨z, hz, hmem3⟩ := List.mem_flatMap.mp hmem2
    obtain ⟨w, hw, heq⟩ := List.mem_map.mp hmem3
    obtain ⟨rfl, rfl, rfl, rfl⟩ : x = a ∧ y = b ∧ z = c ∧ w = d := by
      simpa [Prod.ext_iff] using heq
    exact ⟨hx, hy, hz, hw⟩
  · rintro ⟨ha, hb, hc, hd⟩
    exact List.mem_flatMap.mpr ⟨a, ha,
      List.mem_flatMap.mpr ⟨b, hb,
        List.mem_flatMap.mpr ⟨c, hc, List.mem_map.mpr ⟨d, hd, rfl⟩⟩⟩⟩

theorem exacta_keys (horses : List Horse) :
    (calculate_exacta_probabilities horses).map Prod.fst
      = perms2 (horses.map Horse.id) := by
  unfold calculate_exacta_probabilities
  rw [List.map_map]
  simp [Function.comp_def]

theorem length_perms2 (l : List ℤ) :
    (perms2 l).length = l.length * (l.length - 1) := by
  unfold perms2
  rw [List.length_flatMap]
  have h : List.map (fun a => ((l.erase a).map fun b => (a, b)).length) l
      = List.map (fun _ => l.length - 1) l :=
    List.map_congr_left fun a ha => by
      rw [List.length_map, List.length_erase_of_mem ha]
  calc (List.map (fun a => ((l.erase a).map fun b => (a, b)).length) l).sum
      = (List.map (fun _ => l.length - 1) l).sum := by rw [h]
    _ = l.length * (l.length - 1) := by
        rw [List.map_const', List.sum_replicate, smul_eq_mul]

theorem nodup_perms2 {l : List ℤ} (h : l.Nodup) : (perms2 l).Nodup := by
  unfold perms2
  rw [List.nodup_flatMap]
  refine ⟨?_, ?_⟩
  · intro a _
    exact (h.erase a).map fun x y hxy => by simpa [Prod.ext_iff] using hxy
  · apply h.imp
    intro a b hab z hz1 hz2
    obtain ⟨xa, _, heqa⟩ := List.mem_map.mp hz1
    obtain ⟨xb, _, heqb⟩ := List.mem_map.mp hz2
    rw [← heqa] at heqb
    have hba : b = a ∧ xb = xa := by simpa [Prod.ext_iff] using heqb
    exact hab hba.1.symm

/-- Claim C6: for pairwise-distinct identifiers, the exacta mapping has
exactly n·(n−1) entries, with pairwise-distinct keys that are exactly the
ordered pairs of distinct horse identifiers from the field. -/
theorem exacta_mapping_entry_count (horses : List Horse)
    (hnodup : (horses.map Horse.id).Nodup) :
    (calculate_exacta_probabilities horses).length
        = horses.length * (horses.length - 1)
    ∧ ((calculate_exacta_probabilities horses).map Prod.fst).Nodup
    ∧ ∀ a b : ℤ, ((a, b) ∈ (calculate_exacta_probabilities horses).map Prod.fst
        ↔ a ∈ horses.map Horse.id ∧ b ∈ horses.map Horse.id ∧ a ≠ b) := by
  have hkeys := exacta_keys horses
  refine ⟨?_, ?_, ?_⟩
  · have hlen := congrArg List.length hkeys
    rw [List.length_map] at hlen
    rw [hlen, length_perms2, List.length_map]
  · rw [hkeys]
    exact nodup_perms2 hnodup
  · intro a b
    rw [hkeys, mem_perms2]
    constructor
    · rintro ⟨ha, hb⟩
      have hb2 := (List.Nodup.mem_erase_iff hnodup).mp hb
      exact ⟨ha, hb2.2, fun he => hb2.1 he.symm⟩
    · rintro ⟨ha, hb, hne⟩
      exact ⟨ha, (List.Nodup.mem_erase_iff hnodup).mpr ⟨fun he => hne he.symm, hb⟩⟩

/-- Witness for `exacta_mapping_entry_count` on the two-horse race. -/
theorem exacta_mapping_entry_count_witness :
    (calculate_exacta_probabilities raceOverconfident).length = 2 := by
  have h := (exacta_mapping_entry_count raceOverconfident
    (by norm_num [raceOverconfident, mkHorse])).1
  rw [h]
  norm_num [raceOverconfident]

/-- Claim C5 (amended): the returned Kelly fraction is 0 whenever payout ≤ 1,
agrees with the spec's closed formula whenever payout > 1, and always lies in
[0, 0.25]. -/
theorem kelly_fraction_cases (p payout : ℚ) :
    (payout ≤ 1 → calculate_kelly_fraction p payout = 0)
    ∧ (1 < payout → calculate_kelly_fraction p payout = kellySpecFormula p payout)
    ∧ 0 ≤ calculate_kelly_fraction p payout
    ∧ calculate_kelly_fraction p payout ≤ 0.25 := by
  by_cases h : payout ≤ 1
  · have hv : calculate_kelly_fraction p payout = 0 := by
      rw [calculate_kelly_fraction, if_pos h]
    exact ⟨fun _ => hv, fun h1 => absurd h (not_le.mpr h1), by rw [hv],
      by rw [hv]; norm_num⟩
  · have hv : calculate_kelly_fraction p payout
        = max 0 (min (((payout - 1) * p - (1 - p)) / (payout - 1)) 0.25) := by
      rw [calculate_kelly_fraction, if_neg h]
    refine ⟨fun h1 => absurd h1 h, fun _ => ?_, by rw [hv]; exact le_max_left 0 _,
      by rw [hv]; exact max_le (by norm_num) (min_le_right _ _)⟩
    rw [hv, kellySpecFormula, min_comm]

/-- Claim C5 counterexample: at probability 0.5 and payout 0.5 the code
returns 0 while the claimed unguarded formula returns 0.25. -/
theorem kelly_fraction_spec_counterexample :
    calculate_kelly_fraction 0.5 0.5 = 0 ∧ kellySpecFormula 0.5 0.5 = 0.25
      ∧ ¬ calculate_kelly_fraction 0.5 0.5 = kellySpecFormula 0.5 0.5 := by
  norm_num [calculate_kelly_fraction, kellySpecFormula]

/-- Witness for `kelly_fraction_cases` at probability 0.2, payout 3. -/
theorem kelly_fraction_cases_witness :
    calculate_kelly_fraction 0.2 3 = kellySpecFormula 0.2 3
      ∧ calculate_kelly_fraction 0.2 3 ≤ 0.25 :=
  ⟨(kelly_fraction_cases 0.2 3).2.1 (by norm_num),
    (kelly_fraction_cases 0.2 3).2.2.2⟩

/-- Claim C8: a bet contributes a signal iff its expected value strictly
exceeds the threshold; expected value exactly at the threshold produces no
signal. -/
theorem ev_signals_strict_threshold (θ : ℚ) (bets : List ExoticBet)
    (bet : ExoticBet) (hbet : bet ∈ bets) :
    (mkSignal bet ∈ generate_ev_signals θ bets ↔ θ < bet.expected_value)
    ∧ (bet.expected_value = θ → mkSignal bet ∉ generate_ev_signals θ bets) := by
  have hmem : mkSignal bet ∈ generate_ev_signals θ bets ↔ θ < bet.expected_value := by
    unfold generate_ev_signals
    rw [List.mem_insertionSort]
    simp only [List.mem_map, List.mem_filter, decide_eq_true_eq]
    constructor
    · rintro ⟨b2, ⟨hb2, hlt⟩, heq⟩
      have hev : b2.expected_value = bet.expected_value := by
        have h1 : (mkSignal b2).expected_value = (mkSignal bet).expected_value := by
          rw [heq]
        simpa [mkSignal] using h1
      rwa [hev] at hlt
    · intro h
      exact ⟨bet, ⟨hbet, h⟩, rfl⟩
  refine ⟨hmem, fun he hc => ?_⟩
  have := hmem.mp hc
  rw [he] at this
  exact lt_irrefl θ this

/-- Witness for `ev_signals_strict_threshold`: a bet with expected value 0.2
produces a signal at threshold 0.05. -/
theorem ev_signals_strict_threshold_witness :
    mkSignal sampleBet ∈ generate_ev_signals 0.05 [sampleBet] :=
  (ev_signals_strict_threshold 0.05 [sampleBet] sampleBet (by simp)).1.mpr
    (by norm_num [sampleBet])

theorem impliedProb_pos (h : Horse) : 0 < impliedProb h := by
  by_cases ho : 0 < h.odds
  · rw [impliedProb, if_pos ho]
    exact one_div_pos.mpr ho
  · simp only [impliedProb, if_neg ho]
    norm_num

theorem totalImplied_pos {horses : List Horse} (hne : horses ≠ []) :
    0 < totalImplied horses := by
  rw [totalImplied]
  apply List.sum_pos
  · intro x hx
    obtain ⟨h0, _, rfl⟩ := List.mem_map.mp hx
    exact impliedProb_pos h0
  · simpa using hne

/-- Claim C3: each calibrated win probability is
`0.7 * model + 0.3 * (implied / total_implied)`, where the implied
probability is `1/odds` for positive odds and `0.01` otherwise, and the
normalized implied probabilities sum to 1 across the field. -/
theorem calibrate_blend_formula (horses : List Horse) (i : ℕ)
    (hi : i < horses.length) :
    ((calibrate_win_probabilities horses).getD i defaultHorse).win_probability
      = 0.7 * (horses.getD i defaultHorse).win_probability
        + 0.3 * (impliedProb (horses.getD i defaultHorse) / totalImplied horses)
    ∧ (0 < (horses.getD i defaultHorse).odds →
        impliedProb (horses.getD i defaultHorse) = 1 / (horses.getD i defaultHorse).odds)
    ∧ ((horses.getD i defaultHorse).odds ≤ 0 →
        impliedProb (horses.getD i defaultHorse) = 0.01)
    ∧ (horses.map fun h => impliedProb h / totalImplied horses).sum = 1 := by
  have hne : horses ≠ [] :=
    List.ne_nil_of_length_pos (lt_of_le_of_lt (Nat.zero_le i) hi)
  have htot : 0 < totalImplied horses := totalImplied_pos hne
  have hlen : i < (calibrate_win_probabilities horses).length := by
    simpa [calibrate_win_probabilities] using hi
  refine ⟨?_, ?_, ?_, ?_⟩
  · rw [List.getD_eq_getElem _ _ hlen, List.getD_eq_getElem _ _ hi]
    simp [calibrate_win_probabilities]
  · intro ho
    unfold impliedProb
    rw [if_pos ho]
  · intro ho
    unfold impliedProb
    rw [if_neg (not_lt.mpr ho)]
  · have hsum : (horses.map fun h => impliedProb h / totalImplied horses).sum
        = (horses.map impliedProb).sum * (totalImplied horses)⁻¹ := by
      simp only [div_eq_mul_inv]
      exact List.sum_map_mul_right horses impliedProb (totalImplied horses)⁻¹
    rw [hsum]
    rw [show (horses.map impliedProb).sum = totalImplied horses from rfl]
    exact mul_inv_cancel₀ (ne_of_gt htot)

/-- Witness for `calibrate_blend_formula` on a one-horse race. -/
theorem calibrate_blend_formula_witness :
    ((calibrate_win_probabilities [mkHorse 1 0.5 2]).getD 0 defaultHorse).win_probability
      = 0.65 := by
  have h := (calibrate_blend_formula [mkHorse 1 0.5 2] 0 (by norm_num)).1
  rw [h]
  norm_num [mkHorse, impliedProb, totalImplied, List.getD]

/-- Claim C4 (amended): non-positive odds are absorbed into the implied
probability 0.01, and when the input win probabilities do lie in [0,1] the
calibrated win probability stays in [0,1]; out-of-range win probabilities are
used as-is (see the counterexample). -/
theorem calibrate_absorbs_degenerate (horses : List Horse) (i : ℕ)
    (hi : i < horses.length) :
    ((horses.getD i defaultHorse).odds ≤ 0 →
      impliedProb (horses.getD i defaultHorse) = 0.01)
    ∧ ((∀ h ∈ horses, 0 ≤ h.win_probability ∧ h.win_probability ≤ 1) →
        0 ≤ ((calibrate_win_probabilities horses).getD i defaultHorse).win_probability
          ∧ ((calibrate_win_probabilities horses).getD i defaultHorse).win_probability ≤ 1) := by
  have hne : horses ≠ [] :=
    List.ne_nil_of_length_pos (lt_of_le_of_lt (Nat.zero_le i) hi)
  have htot : 0 < totalImplied horses := totalImplied_pos hne
  refine ⟨fun ho => by unfold impliedProb; rw [if_neg (not_lt.mpr ho)], fun hrange => ?_⟩
  have hform := (calibrate_blend_formula horses i hi).1
  rw [hform]
  have hx : horses.getD i defaultHorse ∈ horses := by
    rw [List.getD_eq_getElem _ _ hi]
    exact List.getElem_mem hi
  obtain ⟨hw0, hw1⟩ := hrange _ hx
  have hip : 0 < impliedProb (horses.getD i defaultHorse) :=
    impliedProb_pos _
  have hile : impliedProb (horses.getD i defaultHorse) ≤ totalImplied horses := by
    rw [totalImplied]
    apply List.single_le_sum
    · intro x hxm
      obtain ⟨h0, _, rfl⟩ := List.mem_map.mp hxm
      exact le_of_lt (impliedProb_pos h0)
    · exact List.mem_map_of_mem impliedProb hx
  have hm0 : 0 ≤ impliedProb (horses.getD i defaultHorse) / totalImplied horses :=
    div_nonneg (le_of_lt hip) (le_of_lt htot)
  have hm1 : impliedProb (horses.getD i defaultHorse) / totalImplied horses ≤ 1 :=
    (div_le_one htot).mpr hile
  constructor <;> nlinarith

/-- Claim C4 counterexample: a win probability of 2 (outside [0,1]) is not
clamped or substituted — the calibrated output is 1.7, itself outside [0,1]. -/
theorem calibrate_no_clamping_counterexample :
    ((calibrate_win_probabilities [mkHorse 1 2 1]).getD 0 defaultHorse).win_probability = 1.7
    ∧ (1 : ℚ) <
        ((calibrate_win_probabilities [mkHorse 1 2 1]).getD 0 defaultHorse).win_probability := by
  norm_num [calibrate_win_probabilities, mkHorse, impliedProb, totalImplied, List.getD]

/-- Witness for `calibrate_absorbs_degenerate`: negative odds are absorbed
and a well-ranged win probability stays in range. -/
theorem calibrate_absorbs_degenerate_witness :
    impliedProb ([mkHorse 1 0.5 (-3)].getD 0 defaultHorse) = 0.01
    ∧ 0 ≤ ((calibrate_win_probabilities [mkHorse 1 0.5 (-3)]).getD 0
        defaultHorse).win_probability := by
  have h := calibrate_absorbs_degenerate [mkHorse 1 0.5 (-3)] 0 (by norm_num)
  refine ⟨h.1 (by norm_num [mkHorse, List.getD]), ?_⟩
  refine (h.2 ?_).1
  intro x hx
  simp only [List.mem_singleton] at hx
  subst hx
  norm_num [mkHorse]

theorem validHorses_raceEpsilonCancel : validHorses raceEpsilonCancel := by
  unfold validHorses raceEpsilonCancel
  intro h hh
  simp only [List.mem_cons, List.not_mem_nil, or_false] at hh
  rcases hh with rfl | rfl | rfl <;> norm_num [mkHorse]

theorem validHorses_raceAllZero : validHorses raceAllZero := by
  unfold validHorses raceAllZero
  intro h hh
  simp only [List.mem_cons, List.not_mem_nil, or_false] at hh
  rcases hh with rfl | rfl | rfl | rfl <;> norm_num [mkHorse]

theorem pool_ids_raceEpsilonCancel :
    (top_horses 6 raceEpsilonCancel).map Horse.id = [1, 2, 3] := by
  norm_num [top_horses, sortDescByWin, raceEpsilonCancel, mkHorse,
    List.insertionSort, List.orderedInsert]

theorem pool_ids_raceAllZero :
    (top_horses 5 raceAllZero).map Horse.id = [1, 2, 3, 4] := by
  norm_num [top_horses, sortDescByWin, raceAllZero, mkHorse,
    List.insertionSort, List.orderedInsert]

theorem zero_mem_trifecta_raceEpsilonCancel :
    (0 : ℚ) ∈ trifectaDenominators raceEpsilonCancel := by
  unfold trifectaDenominators
  rw [pool_ids_raceEpsilonCancel]
  apply List.mem_flatMap.mpr
  refine ⟨(1, 2, 3), mem_perms3.mpr (by decide), ?_⟩
  have h1 : findHorse raceEpsilonCancel 1 = mkHorse 1 1 2 := by
    simp [findHorse, raceEpsilonCancel, List.find?, mkHorse]
  have h2 : findHorse raceEpsilonCancel 2 = mkHorse 2 1e-10 2 := by
    simp [findHorse, raceEpsilonCancel, List.find?, mkHorse]
  rw [h1, h2]
  norm_num [mkHorse]

theorem zero_mem_superfecta_raceAllZero :
    (0 : ℚ) ∈ superfectaDenominators raceAllZero := by
  unfold superfectaDenominators
  rw [pool_ids_raceAllZero]
  apply List.mem_flatMap.mpr
  refine ⟨(1, 2, 3, 4), mem_perms4.mpr (by decide), ?_⟩
  rw [superfectaStepDenominators]
  apply List.mem_cons.mpr
  left
  norm_num [raceAllZero, mkHorse]

/-- Claim C2 counterexample: two valid races (win probabilities in [0,1],
positive odds) on which the sequential-elimination formulas hit an exactly
zero denominator — the trifecta epsilon cancels at `p1 + p2 = 1 + 1e-10`, and
the superfecta denominator carries no epsilon at all. -/
theorem division_guard_counterexample :
    (validHorses raceEpsilonCancel ∧ (0 : ℚ) ∈ trifectaDenominators raceEpsilonCancel)
    ∧ (validHorses raceAllZero ∧ (0 : ℚ) ∈ superfectaDenominators raceAllZero) :=
  ⟨⟨validHorses_raceEpsilonCancel, zero_mem_trifecta_raceEpsilonCancel⟩,
   ⟨validHorses_raceAllZero, zero_mem_superfecta_raceAllZero⟩⟩

/-- Claim C2 (amended): the exacta denominators are never zero for win
probabilities ≤ 1, but both the trifecta and the superfecta computations can
divide by an exactly-zero denominator on valid inputs. -/
theorem division_guard_status :
    (∀ horses : List Horse, (∀ h ∈ horses, h.win_probability ≤ 1) →
        (0 : ℚ) ∉ exactaDenominators horses)
    ∧ (∃ horses : List Horse, validHorses horses
        ∧ (0 : ℚ) ∈ trifectaDenominators horses)
    ∧ (∃ horses : List Horse, validHorses horses
        ∧ (0 : ℚ) ∈ superfectaDenominators horses) := by
  refine ⟨?_,
    ⟨raceEpsilonCancel, validHorses_raceEpsilonCancel, zero_mem_trifecta_raceEpsilonCancel⟩,
    ⟨raceAllZero, validHorses_raceAllZero, zero_mem_superfecta_raceAllZero⟩⟩
  intro horses hup hmem
  unfold exactaDenominators at hmem
  obtain ⟨p, hp, heq⟩ := List.mem_map.mp hmem
  rcases p with ⟨a, b⟩
  obtain ⟨ha, -⟩ := mem_perms2.mp hp
  have hw := hup _ (findHorse_spec ha).1
  have : (0 : ℚ) < 1 - (findHorse horses a).win_probability + 1e-10 := by linarith
  rw [heq] at this
  exact lt_irrefl 0 this

/-- Witness for `division_guard_status`: a well-formed one-horse race has no
zero exacta denominator. -/
theorem division_guard_status_witness :
    (0 : ℚ) ∉ exactaDenominators [mkHorse 1 0.5 2] := by
  apply division_guard_status.1
  intro h hh
  simp only [List.mem_singleton] at hh
  subst hh
  norm_num [mkHorse]

/-- Claim C10: on a valid race (probabilities in [0,1], positive odds,
distinct ids) the pipeline's exacta mapping can assign a joint probability
strictly greater than 1. -/
theorem exacta_joint_probability_exceeds_one :
    validHorses raceOverconfident ∧ (raceOverconfident.map Horse.id).Nodup
    ∧ ∃ kv ∈ calculate_exacta_probabilities (calibrate_win_probabilities raceOverconfident),
        1 < kv.2 := by
  refine ⟨?_, by norm_num [raceOverconfident, mkHorse], ?_⟩
  · intro h hh
    simp only [raceOverconfident, mkHorse, List.mem_cons, List.not_mem_nil, or_false] at hh
    rcases hh with rfl | rfl <;> norm_num
  · refine ⟨((1, 2), exactaValue (calibrate_win_probabilities raceOverconfident) 1 2),
      ?_, ?_⟩
    · unfold calculate_exacta_probabilities
      apply List.mem_map.mpr
      refine ⟨(1, 2), ?_, rfl⟩
      apply mem_perms2.mpr
      norm_num [calibrate_win_probabilities, raceOverconfident, mkHorse, List.erase]
    · norm_num [exactaValue, calibrate_win_probabilities, raceOverconfident, mkHorse,
        findHorse, List.find?, impliedProb, totalImplied]


theorem exacta_bet_prob_le {horses : List Horse} {m : ℕ} {b : ExoticBet}
    (hb : b ∈ generate_exacta_combinations horses m) :
    min_probability_threshold ≤ b.probability := by
  simp only [generate_exacta_combinations] at hb
  have hb2 := List.mem_of_mem_take hb
  rw [sortByEVDesc, List.mem_insertionSort] at hb2
  obtain ⟨e, he, rfl⟩ := List.mem_map.mp hb2
  have hc := (List.mem_filter.mp he).2
  simp only [decide_eq_true_eq, not_lt] at hc
  exact hc

theorem trifecta_bet_prob_le {horses : List Horse} {m : ℕ} {b : ExoticBet}
    (hb : b ∈ generate_trifecta_combinations horses m) :
    min_probability_threshold ≤ b.probability := by
  simp only [generate_trifecta_combinations] at hb
  have hb2 := List.mem_of_mem_take hb
  rw [sortByEVDesc, List.mem_insertionSort] at hb2
  obtain ⟨e, he, rfl⟩ := List.mem_map.mp hb2
  have hc := (List.mem_filter.mp he).2
  simp only [decide_eq_true_eq, not_lt] at hc
  exact hc

theorem superfecta_bet_prob_le {horses : List Horse} {m : ℕ} {b : ExoticBet}
    (hb : b ∈ generate_superfecta_combinations horses m) :
    min_probability_threshold ≤ b.probability := by
  simp only [generate_superfecta_combinations] at hb
  have hb2 := List.mem_of_mem_take hb
  rw [sortByEVDesc, List.mem_insertionSort] at hb2
  obtain ⟨e, he, rfl⟩ := List.mem_map.mp hb2
  have hc := (List.mem_filter.mp he).2
  simp only [decide_eq_true_eq, not_lt] at hc
  exact hc

/-- Claim C9: every bet produced by any of the three generators has
probability at least the 0.001 threshold (hence strictly positive), and so
does every downstream signal built from those bets. -/
theorem generated_bets_min_probability (horses : List Horse) (m : ℕ) (θ : ℚ)
    (b : ExoticBet) (s : Signal) :
    ((b ∈ generate_exacta_combinations horses m
        ∨ b ∈ generate_trifecta_combinations horses m
        ∨ b ∈ generate_superfecta_combinations horses m) →
      min_probability_threshold ≤ b.probability ∧ 0 < b.probability)
    ∧ (s ∈ generate_ev_signals θ
          (generate_exacta_combinations horses m
            ++ generate_trifecta_combinations horses m
            ++ generate_superfecta_combinations horses m) →
        min_probability_threshold ≤ s.probability ∧ 0 < s.probability) := by
  have hthr : (0 : ℚ) < min_probability_threshold := by
    norm_num [min_probability_threshold]
  have hone : ∀ b2 : ExoticBet,
      (b2 ∈ generate_exacta_combinations horses m
        ∨ b2 ∈ generate_trifecta_combinations horses m
        ∨ b2 ∈ generate_superfecta_combinations horses m) →
      min_probability_threshold ≤ b2.probability ∧ 0 < b2.probability := by
    rintro b2 (hb | hb | hb)
    · exact ⟨exacta_bet_prob_le hb, lt_of_lt_of_le hthr (exacta_bet_prob_le hb)⟩
    · exact ⟨trifecta_bet_prob_le hb, lt_of_lt_of_le hthr (trifecta_bet_prob_le hb)⟩
    · exact ⟨superfecta_bet_prob_le hb, lt_of_lt_of_le hthr (superfecta_bet_prob_le hb)⟩
  refine ⟨hone b, ?_⟩
  intro hs
  simp only [generate_ev_signals] at hs
  rw [List.mem_insertionSort] at hs
  obtain ⟨bet, hbet, rfl⟩ := List.mem_map.mp hs
  have hbet2 := (List.mem_filter.mp hbet).1
  have hcase : bet ∈ generate_exacta_combinations horses m
      ∨ bet ∈ generate_trifecta_combinations horses m
      ∨ bet ∈ generate_superfecta_combinations horses m := by
    rcases List.mem_append.mp hbet2 with h12 | h3
    · rcases List.mem_append.mp h12 with h1 | h2
      · exact Or.inl h1
      · exact Or.inr (Or.inl h2)
    · exact Or.inr (Or.inr h3)
  exact hone bet hcase

/-- Witness for `generated_bets_min_probability`: the first exacta bet on the
two-horse race has positive probability. -/
theorem generated_bets_min_probability_witness :
    0 < ((generate_exacta_combinations raceTwo 20).getD 0 defaultBet).probability := by
  have hlen : 0 < (generate_exacta_combinations raceTwo 20).length := by
    simp only [generate_exacta_combinations, List.length_take, sortByEVDesc,
      List.length_insertionSort, List.length_map]
    norm_num [calculate_exacta_probabilities, perms2, exactaValue, findHorse,
      raceTwo, mkHorse, List.find?, List.erase, min_probability_threshold,
      List.filter]
  have hmem : (generate_exacta_combinations raceTwo 20).getD 0 defaultBet
      ∈ generate_exacta_combinations raceTwo 20 := by
    rw [List.getD_eq_getElem _ _ hlen]
    exact List.getElem_mem hlen
  exact ((generated_bets_min_probability raceTwo 20 0 _ (mkSignal defaultBet)).1
    (Or.inl hmem)).2

theorem superfecta_keys (horses : List Horse) :
    (calculate_superfecta_probabilities horses).map Prod.fst
      = perms4 ((top_horses 5 horses).map Horse.id) := by
  unfold calculate_superfecta_probabilities
  rw [List.map_map]
  simp [Function.comp_def]

theorem sortDescByWin_perm (horses : List Horse) :
    (sortDescByWin horses).Perm horses :=
  List.perm_insertionSort _ _

theorem pool_ids_nodup {horses : List Horse}
    (hn : (horses.map Horse.id).Nodup) (k : ℕ) :
    ((top_horses k horses).map Horse.id).Nodup := by
  have hperm2 : ((sortDescByWin horses).map Horse.id).Perm (horses.map Horse.id) :=
    (sortDescByWin_perm horses).map _
  have hsn : ((sortDescByWin horses).map Horse.id).Nodup := hperm2.nodup_iff.mpr hn
  unfold top_horses
  rw [List.map_take]
  exact List.Nodup.sublist (List.take_sublist _ _) hsn

theorem pool_ids_mem {horses : List Horse} {k : ℕ} {x : ℤ}
    (hx : x ∈ (top_horses k horses).map Horse.id) : x ∈ horses.map Horse.id := by
  unfold top_horses at hx
  rw [List.map_take] at hx
  have hx2 := List.mem_of_mem_take hx
  exact ((sortDescByWin_perm horses).map Horse.id).mem_iff.mp hx2

/-- Claim C1 (amended): for a key of the superfecta mapping, the joint value
renormalizes each positional probability against the not-yet-placed horses of
the WHOLE FIELD (not of the top-5 pool): the step denominators are the sums of
win probabilities over the field minus the already-placed identifiers. -/
theorem superfecta_renormalizes_over_whole_field (horses : List Horse)
    (hnodup : (horses.map Horse.id).Nodup) (a b c d : ℤ)
    (hk : (a, b, c, d) ∈ (calculate_superfecta_probabilities horses).map Prod.fst) :
    superfectaValue horses (a, b, c, d)
      = (findHorse horses a).win_probability / (horses.map Horse.win_probability).sum
        * ((findHorse horses b).win_probability /
            ((horses.filter fun h => decide (h.id ≠ a)).map Horse.win_probability).sum)
        * ((findHorse horses c).win_probability /
            ((horses.filter fun h => decide (h.id ≠ a ∧ h.id ≠ b)).map
              Horse.win_probability).sum)
        * ((findHorse horses d).win_probability /
            ((horses.filter fun h => decide (h.id ≠ a ∧ h.id ≠ b ∧ h.id ≠ c)).map
              Horse.win_probability).sum) := by
  rw [superfecta_keys] at hk
  have hpn : ((top_horses 5 horses).map Horse.id).Nodup := pool_ids_nodup hnodup 5
  obtain ⟨ha, hb, hc, hd⟩ := mem_perms4.mp hk
  have hb2 := (List.Nodup.mem_erase_iff hpn).mp hb
  have hc1 := (List.Nodup.mem_erase_iff (hpn.erase a)).mp hc
  have hc2 := (List.Nodup.mem_erase_iff hpn).mp hc1.2
  have hd1 := (List.Nodup.mem_erase_iff ((hpn.erase a).erase b)).mp hd
  have hd2 := (List.Nodup.mem_erase_iff (hpn.erase a)).mp hd1.2
  have hd3 := (List.Nodup.mem_erase_iff hpn).mp hd2.2
  have hbm : b ∈ horses.map Horse.id := pool_ids_mem hb2.2
  have hcm : c ∈ horses.map Horse.id := pool_ids_mem hc2.2
  have hdm : d ∈ horses.map Horse.id := pool_ids_mem hd3.2
  have hn2 : ((horses.filter fun h => decide (h.id ≠ a)).map Horse.id).Nodup :=
    List.Nodup.sublist (List.Sublist.map _ (List.filter_sublist horses)) hnodup
  have hn3 : ((horses.filter fun h => decide (h.id ≠ a ∧ h.id ≠ b)).map Horse.id).Nodup :=
    List.Nodup.sublist (List.Sublist.map _ (List.filter_sublist horses)) hnodup
  have e1 : removeById horses a = horses.filter fun h => decide (h.id ≠ a) := by
    rw [removeById_eq_filter hnodup a]
    exact List.filter_congr fun x _ => by by_cases h1 : x.id = a <;> simp [h1]
  have e2 : removeById (horses.filter fun h => decide (h.id ≠ a)) b
      = horses.filter fun h => decide (h.id ≠ a ∧ h.id ≠ b) := by
    rw [removeById_eq_filter hn2 b, List.filter_filter]
    exact List.filter_congr fun x _ => by
      by_cases h1 : x.id = a <;> by_cases h2 : x.id = b <;> simp [h1, h2]
  have e3 : removeById (horses.filter fun h => decide (h.id ≠ a ∧ h.id ≠ b)) c
      = horses.filter fun h => decide (h.id ≠ a ∧ h.id ≠ b ∧ h.id ≠ c) := by
    rw [removeById_eq_filter hn3 c, List.filter_filter]
    exact List.filter_congr fun x _ => by
      by_cases h1 : x.id = a <;> by_cases h2 : x.id = b <;> by_cases h3 : x.id = c <;>
        simp [h1, h2, h3]
  obtain ⟨hbh_mem, hbh_id⟩ := findHorse_spec hbm
  obtain ⟨hch_mem, hch_id⟩ := findHorse_spec hcm
  obtain ⟨hdh_mem, hdh_id⟩ := findHorse_spec hdm
  have f2 : findHorse (horses.filter fun h => decide (h.id ≠ a)) b
      = findHorse horses b := by
    have hmemf : findHorse horses b ∈ horses.filter fun h => decide (h.id ≠ a) :=
      List.mem_filter.mpr ⟨hbh_mem, by simp [hbh_id, hb2.1]⟩
    have hx := findHorse_eq_of_mem hn2 hmemf
    rw [hbh_id] at hx
    exact hx
  have f3 : findHorse (horses.filter fun h => decide (h.id ≠ a ∧ h.id ≠ b)) c
      = findHorse horses c := by
    have hmemf : findHorse horses c
        ∈ horses.filter fun h => decide (h.id ≠ a ∧ h.id ≠ b) :=
      List.mem_filter.mpr ⟨hch_mem, by simp [hch_id, hc2.1, hc1.1]⟩
    have hx := findHorse_eq_of_mem hn3 hmemf
    rw [hch_id] at hx
    exact hx
  have f4 : findHorse (horses.filter fun h => decide (h.id ≠ a ∧ h.id ≠ b ∧ h.id ≠ c)) d
      = findHorse horses d := by
    have hn4 : ((horses.filter fun h =>
        decide (h.id ≠ a ∧ h.id ≠ b ∧ h.id ≠ c)).map Horse.id).Nodup :=
      List.Nodup.sublist (List.Sublist.map _ (List.filter_sublist horses)) hnodup
    have hmemf : findHorse horses d
        ∈ horses.filter fun h => decide (h.id ≠ a ∧ h.id ≠ b ∧ h.id ≠ c) :=
      List.mem_filter.mpr ⟨hdh_mem, by simp [hdh_id, hd3.1, hd2.1, hd1.1]⟩
    have hx := findHorse_eq_of_mem hn4 hmemf
    rw [hdh_id] at hx
    exact hx
  unfold superfectaValue
  simp only [superfectaStep]
  rw [e1, e2, e3, f2, f3, f4]
  ring

theorem pool_ids_raceSix :
    (top_horses 5 raceSix).map Horse.id = [1, 2, 3, 4, 5] := by
  norm_num [top_horses, sortDescByWin, raceSix, mkHorse,
    List.insertionSort, List.orderedInsert]

theorem top5_raceSix :
    top_horses 5 raceSix
      = [mkHorse 1 0.30 2, mkHorse 2 0.25 2, mkHorse 3 0.20 2,
         mkHorse 4 0.15 2, mkHorse 5 0.06 2] := by
  norm_num [top_horses, sortDescByWin, raceSix, mkHorse,
    List.insertionSort, List.orderedInsert]

/-- Claim C1 counterexample: on `raceSix` the mapping's value at key
(1,2,3,4) is 1/35 — the whole-field renormalization — while the claimed
pool renormalization would give 3125/75768; they differ. -/
theorem superfecta_pool_renormalization_counterexample :
    ((1, 2, 3, 4) : ℤ × ℤ × ℤ × ℤ)
        ∈ (calculate_superfecta_probabilities raceSix).map Prod.fst
    ∧ superfectaValue raceSix (1, 2, 3, 4) = 1 / 35
    ∧ superfectaPoolValue raceSix (1, 2, 3, 4) = 3125 / 75768
    ∧ ¬ superfectaValue raceSix (1, 2, 3, 4)
        = superfectaPoolValue raceSix (1, 2, 3, 4) := by
  have hval : superfectaValue raceSix (1, 2, 3, 4) = 1 / 35 := by
    norm_num [superfectaValue, superfectaStep, findHorse, removeById, raceSix,
      mkHorse, List.find?, List.eraseP]
  have hpool : superfectaPoolValue raceSix (1, 2, 3, 4) = 3125 / 75768 := by
    rw [superfectaPoolValue, top5_raceSix]
    norm_num [superfectaStep, findHorse, removeById, mkHorse, List.find?,
      List.eraseP]
  refine ⟨?_, hval, hpool, ?_⟩
  · rw [superfecta_keys, pool_ids_raceSix]
    exact mem_perms4.mpr (by decide)
  · rw [hval, hpool]
    norm_num

/-- Witness for `superfecta_renormalizes_over_whole_field` at `raceSix`,
key (1,2,3,4). -/
theorem superfecta_renormalizes_over_whole_field_witness :
    superfectaValue raceSix (1, 2, 3, 4)
      = (findHorse raceSix 1).win_probability / (raceSix.map Horse.win_probability).sum
        * ((findHorse raceSix 2).win_probability /
            ((raceSix.filter fun h => decide (h.id ≠ 1)).map Horse.win_probability).sum)
        * ((findHorse raceSix 3).win_probability /
            ((raceSix.filter fun h => decide (h.id ≠ 1 ∧ h.id ≠ 2)).map
              Horse.win_probability).sum)
        * ((findHorse raceSix 4).win_probability /
            ((raceSix.filter fun h => decide (h.id ≠ 1 ∧ h.id ≠ 2 ∧ h.id ≠ 3)).map
              Horse.win_probability).sum) :=
  superfecta_renormalizes_over_whole_field raceSix
    (by norm_num [raceSix, mkHorse]) 1 2 3 4
    (by rw [superfecta_keys, pool_ids_raceSix]; exact mem_perms4.mpr (by decide))

theorem get_pair_sublist {α : Type} {l : List α} {i j : ℕ} (hij : i < j)
    (hj : j < l.length) :
    List.Sublist [l.get ⟨i, lt_trans hij hj⟩, l.get ⟨j, hj⟩] l := by
  have hi2 : i < l.length := lt_trans hij hj
  have e1 : l.drop i = l.get ⟨i, hi2⟩ :: l.drop (i + 1) := by
    rw [List.drop_eq_getElem_cons hi2, List.get_eq_getElem]
  have hmemj : l.get ⟨j, hj⟩ ∈ l.drop (i + 1) := by
    have h1 : l.get ⟨j, hj⟩ ∈ l.drop j := by
      rw [List.drop_eq_getElem_cons hj, List.get_eq_getElem]
      exact List.mem_cons_self _ _
    exact (List.drop_sublist_drop_left l (by omega)).subset h1
  have hsub2 : List.Sublist [l.get ⟨i, hi2⟩, l.get ⟨j, hj⟩] (l.drop i) := by
    rw [e1]
    exact (List.singleton_sublist.mpr hmemj).cons₂ _
  exact hsub2.trans (List.drop_sublist _ _)

theorem top_pool_characterization {horses : List Horse}
    (hnodup : (horses.map Horse.id).Nodup) (k i j : ℕ)
    (hi : i < horses.length) (hj : j < horses.length)
    (hin : horses.get ⟨i, hi⟩ ∈ top_horses k horses)
    (hout : horses.get ⟨j, hj⟩ ∉ top_horses k horses) :
    (horses.get ⟨j, hj⟩).win_probability < (horses.get ⟨i, hi⟩).win_probability
    ∨ ((horses.get ⟨j, hj⟩).win_probability = (horses.get ⟨i, hi⟩).win_probability
        ∧ i < j) := by
  unfold top_horses at hin hout
  have hperm : (sortDescByWin horses).Perm horses := sortDescByWin_perm horses
  have hhn : horses.Nodup := List.Nodup.of_map Horse.id hnodup
  have hsn : (sortDescByWin horses).Nodup := hperm.nodup_iff.mpr hhn
  have hsorted : (sortDescByWin horses).Pairwise
      (fun a b : Horse => b.win_probability ≤ a.win_probability) := by
    unfold sortDescByWin
    haveI : IsTotal Horse (fun a b : Horse => b.win_probability ≤ a.win_probability) :=
      ⟨fun a b => le_total _ _⟩
    haveI : IsTrans Horse (fun a b : Horse => b.win_probability ≤ a.win_probability) :=
      ⟨fun a b c hab hbc => le_trans hbc hab⟩
    exact List.sorted_insertionSort _ _
  have hgjs : horses.get ⟨j, hj⟩ ∈ sortDescByWin horses :=
    hperm.mem_iff.mpr (List.get_mem _ _ _)
  have hdropj : horses.get ⟨j, hj⟩ ∈ (sortDescByWin horses).drop k := by
    rw [← List.take_append_drop k (sortDescByWin horses)] at hgjs
    rcases List.mem_append.mp hgjs with h1 | h2
    · exact absurd h1 hout
    · exact h2
  have hsplit : ∀ x ∈ (sortDescByWin horses).take k,
      ∀ y ∈ (sortDescByWin horses).drop k,
        y.win_probability ≤ x.win_probability := by
    have h2 := hsorted
    rw [← List.take_append_drop k (sortDescByWin horses)] at h2
    exact (List.pairwise_append.mp h2).2.2
  have hle : (horses.get ⟨j, hj⟩).win_probability
      ≤ (horses.get ⟨i, hi⟩).win_probability := hsplit _ hin _ hdropj
  by_cases hlt : (horses.get ⟨j, hj⟩).win_probability
      < (horses.get ⟨i, hi⟩).win_probability
  · exact Or.inl hlt
  · have heqw : (horses.get ⟨j, hj⟩).win_probability
        = (horses.get ⟨i, hi⟩).win_probability :=
      le_antisymm hle (not_lt.mp hlt)
    refine Or.inr ⟨heqw, ?_⟩
    by_contra hnot
    have hne : horses.get ⟨i, hi⟩ ≠ horses.get ⟨j, hj⟩ := fun he => hout (he ▸ hin)
    have hij : j < i := by
      rcases Nat.lt_trichotomy i j with h | h | h
      · exact absurd h hnot
      · exact absurd (by subst h; rfl) hne
      · exact h
    have hpair0 : List.Sublist [horses.get ⟨j, hj⟩, horses.get ⟨i, hi⟩] horses := by
      have hx := get_pair_sublist hij hi (l := horses)
      exact hx
    have hrel : (horses.get ⟨i, hi⟩).win_probability
        ≤ (horses.get ⟨j, hj⟩).win_probability := le_of_eq heqw.symm
    have hpair : List.Sublist [horses.get ⟨j, hj⟩, horses.get ⟨i, hi⟩]
        (sortDescByWin horses) := by
      unfold sortDescByWin
      exact List.pair_sublist_insertionSort hrel hpair0
    have hpair2 : List.Sublist [horses.get ⟨j, hj⟩, horses.get ⟨i, hi⟩]
        ((sortDescByWin horses).take k ++ (sortDescByWin horses).drop k) := by
      rw [List.take_append_drop]
      exact hpair
    have hdisj : ((sortDescByWin horses).take k).Disjoint
        ((sortDescByWin horses).drop k) := by
      have h2 := hsn
      rw [← List.take_append_drop k (sortDescByWin horses)] at h2
      exact (List.nodup_append.mp h2).2.2
    obtain ⟨l1, l2, heq, hsub1, hsub2⟩ := List.sublist_append_iff.mp hpair2
    cases l1 with
    | nil =>
      simp only [List.nil_append] at heq
      rw [← heq] at hsub2
      have : horses.get ⟨i, hi⟩ ∈ (sortDescByWin horses).drop k :=
        hsub2.mem (by simp)
      exact hdisj hin this
    | cons z zs =>
      cases zs with
      | nil =>
        have hz : z = horses.get ⟨j, hj⟩ ∧ l2 = [horses.get ⟨i, hi⟩] := by
          constructor
          · exact (List.cons.injEq .. ▸ heq).1.symm
          · have := (List.cons.injEq .. ▸ heq).2
            simpa using this.symm
        rw [hz.2] at hsub2
        have : horses.get ⟨i, hi⟩ ∈ (sortDescByWin horses).drop k :=
          hsub2.mem (by simp)
        exact hdisj hin this
      | cons w ws =>
        have hz : z = horses.get ⟨j, hj⟩ ∧ w = horses.get ⟨i, hi⟩
            ∧ ws = [] ∧ l2 = [] := by
          have h2 := heq
          simp only [List.cons_append] at h2
          have e1 := (List.cons.injEq .. ▸ h2).1
          have e2 := (List.cons.injEq .. ▸ h2).2
          have e3 := (List.cons.injEq .. ▸ e2).1
          have e4 := (List.cons.injEq .. ▸ e2).2
          have e5 : ws = [] ∧ l2 = [] := by
            have := e4.symm
            exact List.append_eq_nil.mp this
          exact ⟨e1.symm, e3.symm, e5⟩
        rw [hz.1, hz.2.2.1] at hsub1
        rw [hz.2.1] at hsub1
        have : horses.get ⟨j, hj⟩ ∈ (sortDescByWin horses).take k :=
          hsub1.mem (by simp)
        exact hdisj this hdropj

theorem trifecta_keys (horses : List Horse) :
    (calculate_trifecta_probabilities horses).map Prod.fst
      = perms3 ((top_horses 6 horses).map Horse.id) := by
  unfold calculate_trifecta_probabilities
  rw [List.map_map]
  simp [Function.comp_def]

/-- Claim C7: the trifecta pool is the top-6 (superfecta: top-5) slice of the
stable descending sort — every pool member beats every non-member on
calibrated win probability, with ties resolved in favor of the earlier input
position — and the mapping keys are exactly permutations drawn from those
pools. -/
theorem pools_are_top_k_stable (horses : List Horse)
    (hnodup : (horses.map Horse.id).Nodup) :
    ((top_horses 6 horses).length = min 6 horses.length
      ∧ (top_horses 5 horses).length = min 5 horses.length)
    ∧ (∀ k : ℕ, ∀ h ∈ top_horses k horses, h ∈ horses)
    ∧ (∀ k i j : ℕ, ∀ hi : i < horses.length, ∀ hj : j < horses.length,
        horses.get ⟨i, hi⟩ ∈ top_horses k horses →
        horses.get ⟨j, hj⟩ ∉ top_horses k horses →
        (horses.get ⟨j, hj⟩).win_probability < (horses.get ⟨i, hi⟩).win_probability
        ∨ ((horses.get ⟨j, hj⟩).win_probability
              = (horses.get ⟨i, hi⟩).win_probability ∧ i < j))
    ∧ (∀ p ∈ (calculate_trifecta_probabilities horses).map Prod.fst,
        (p.1 ∈ (top_horses 6 horses).map Horse.id
          ∧ p.2.1 ∈ (top_horses 6 horses).map Horse.id
          ∧ p.2.2 ∈ (top_horses 6 horses).map Horse.id)
        ∧ p.1 ≠ p.2.1 ∧ p.1 ≠ p.2.2 ∧ p.2.1 ≠ p.2.2)
    ∧ (∀ q ∈ (calculate_superfecta_probabilities horses).map Prod.fst,
        (q.1 ∈ (top_horses 5 horses).map Horse.id
          ∧ q.2.1 ∈ (top_horses 5 horses).map Horse.id
          ∧ q.2.2.1 ∈ (top_horses 5 horses).map Horse.id
          ∧ q.2.2.2 ∈ (top_horses 5 horses).map Horse.id)
        ∧ q.1 ≠ q.2.1 ∧ q.1 ≠ q.2.2.1 ∧ q.1 ≠ q.2.2.2
          ∧ q.2.1 ≠ q.2.2.1 ∧ q.2.1 ≠ q.2.2.2 ∧ q.2.2.1 ≠ q.2.2.2) := by
  refine ⟨⟨?_, ?_⟩, ?_, ?_, ?_, ?_⟩
  · unfold top_horses sortDescByWin
    rw [List.length_take, List.length_insertionSort]
  · unfold top_horses sortDescByWin
    rw [List.length_take, List.length_insertionSort]
  · intro k h hh
    unfold top_horses at hh
    exact (sortDescByWin_perm horses).mem_iff.mp (List.mem_of_mem_take hh)
  · intro k i j hi hj hin hout
    exact top_pool_characterization hnodup k i j hi hj hin hout
  · intro p hp
    rw [trifecta_keys] at hp
    rcases p with ⟨a, b, c⟩
    have hpn := pool_ids_nodup hnodup 6
    obtain ⟨ha, hb, hc⟩ := mem_perms3.mp hp
    have hb2 := (List.Nodup.mem_erase_iff hpn).mp hb
    have hc1 := (List.Nodup.mem_erase_iff (hpn.erase a)).mp hc
    have hc2 := (List.Nodup.mem_erase_iff hpn).mp hc1.2
    exact ⟨⟨ha, hb2.2, hc2.2⟩, fun he => hb2.1 he.symm, fun he => hc2.1 he.symm,
      fun he => hc1.1 he.symm⟩
  · intro q hq
    rw [superfecta_keys] at hq
    rcases q with ⟨a, b, c, d⟩
    have hpn := pool_ids_nodup hnodup 5
    obtain ⟨ha, hb, hc, hd⟩ := mem_perms4.mp hq
    have hb2 := (List.Nodup.mem_erase_iff hpn).mp hb
    have hc1 := (List.Nodup.mem_erase_iff (hpn.erase a)).mp hc
    have hc2 := (List.Nodup.mem_erase_iff hpn).mp hc1.2
    have hd1 := (List.Nodup.mem_erase_iff ((hpn.erase a).erase b)).mp hd
    have hd2 := (List.Nodup.mem_erase_iff (hpn.erase a)).mp hd1.2
    have hd3 := (List.Nodup.mem_erase_iff hpn).mp hd2.2
    exact ⟨⟨ha, hb2.2, hc2.2, hd3.2⟩, fun he => hb2.1 he.symm,
      fun he => hc2.1 he.symm, fun he => hd3.1 he.symm,
      fun he => hc1.1 he.symm, fun he => hd2.1 he.symm, fun he => hd1.1 he.symm⟩

theorem top6_raceSeven :
    top_horses 6 raceSeven
      = [mkHorse 1 0.30 2, mkHorse 2 0.25 2, mkHorse 3 0.20 2,
         mkHorse 4 0.15 2, mkHorse 5 0.05 2, mkHorse 6 0.05 2] := by
  norm_num [top_horses, sortDescByWin, raceSeven, mkHorse,
    List.insertionSort, List.orderedInsert]

/-- Witness for `pools_are_top_k_stable` on the seven-horse race: horse 5
(input position 4) is in the top-6 pool, horse 7 (position 6) is not, and the
characterization holds for that pair. -/
theorem pools_are_top_k_stable_witness :
    (raceSeven.get ⟨6, by norm_num [raceSeven]⟩).win_probability
        < (raceSeven.get ⟨4, by norm_num [raceSeven]⟩).win_probability
    ∨ ((raceSeven.get ⟨6, by norm_num [raceSeven]⟩).win_probability
          = (raceSeven.get ⟨4, by norm_num [raceSeven]⟩).win_probability
        ∧ 4 < 6) := by
  apply (pools_are_top_k_stable raceSeven (by norm_num [raceSeven, mkHorse])).2.2.1
    6 4 6 (by norm_num [raceSeven]) (by norm_num [raceSeven])
  · rw [top6_raceSeven]
    show mkHorse 5 0.05 2 ∈ _
    simp
  · rw [top6_raceSeven]
    show mkHorse 7 0 2 ∉ _
    norm_num [mkHorse, Horse.mk.injEq]
